import Mathlib

/-!
Verification of `swift/rlhf_trainers/pair_sampler.py` (`PairRepeatSampler`).

The Python class scans a dataset whose examples carry integer fields
`pair_id` and `side`, builds an insertion-ordered mapping
`pair_id -> {side -> dataset index}`, keeps only pairs having both side 0 and
side 1, and raises `ValueError` when no complete pair exists.  Iteration
optionally shuffles the pair-id list with `random.Random(seed + epoch)`,
shards it as `pairs[rank::world_size]`, and for each selected pair yields the
side-0 index `K` times followed by the side-1 index `K` times.

The embedding below models Python dicts as insertion-ordered association
lists (assignment replaces in place, fresh keys are appended at the end),
`random.Random.shuffle` as CPython's MT19937-driven Fisher-Yates, and the
generator body of `__iter__` as an `Option`-valued list producer (a failing
dict lookup, which would raise `KeyError` in Python, yields `none`).
-/

namespace PairSampler

/-- One dataset example: the two integer fields read by the sampler
(`ex["pair_id"]`, `ex["side"]`). -/
structure Example where
  pair_id : Int
  side : Int
deriving DecidableEq, Repr

/-- The `data_source`: positional access and a length, which is all the
sampler uses. -/
abbrev Dataset := List Example

/-! ### Insertion-ordered dictionaries (Python `dict` semantics)

A Python dict keeps keys in insertion order; assigning to an existing key
replaces its value in place, assigning a fresh key appends it at the end. -/

/-- Lookup in an insertion-ordered dictionary (`d[k]` / `d.get(k)`). -/
def dictFind? {β : Type} (d : List (Int × β)) (k : Int) : Option β :=
  match d with
  | [] => none
  | (k', v) :: rest => if k' = k then some v else dictFind? rest k

/-- Python `k in d`. -/
def dictContains {β : Type} (d : List (Int × β)) (k : Int) : Bool :=
  (dictFind? d k).isSome

/-- Python `d[k] = v`: replace in place if the key exists, else append. -/
def dictInsert {β : Type} (d : List (Int × β)) (k : Int) (v : β) : List (Int × β) :=
  match d with
  | [] => [(k, v)]
  | (k', v') :: rest => if k' = k then (k, v) :: rest else (k', v') :: dictInsert rest k v

/-- Python `list(d.keys())`, in insertion order. -/
def dictKeys {β : Type} (d : List (Int × β)) : List Int :=
  d.map Prod.fst

/-! ### CPython `random.Random(seed)` / `.shuffle` (MT19937)

`__iter__` shuffles the pair list with `random.Random(self.seed + self.epoch)`.
This section models the CPython implementation: MT19937 seeded through
`init_by_array` from the 32-bit little-endian words of the seed, and
`shuffle`'s Fisher-Yates loop driven by `_randbelow_with_getrandbits`.
The claims only depend on the result being a deterministic permutation. -/

/-- Truncation to an unsigned 32-bit word. -/
def mask32 (x : Nat) : Nat := x % 4294967296

/-- MT19937 `init_genrand`: fill the 624-word state from a scalar seed. -/
def initGenrand (s : Nat) : List Nat :=
  (List.range 623).foldl
    (fun mt i =>
      let prev := (mt.getLast?).getD 0
      mt ++ [mask32 (1812433253 * (prev ^^^ (prev >>> 30)) + (i + 1))])
    [mask32 s]

/-- MT19937 `init_by_array`: key-mixing initialisation used by CPython for
integer seeds. -/
def initByArray (key : List Nat) : List Nat :=
  let keyLen := key.length
  let mt0 := initGenrand 19650218
  let s1 := (List.range (max 624 keyLen)).foldl
    (fun (st : List Nat × Nat × Nat) _ =>
      let mt := st.1
      let i := st.2.1
      let j := st.2.2
      let prev := mt.getD (i - 1) 0
      let v := mask32 (((mt.getD i 0) ^^^ mask32 ((prev ^^^ (prev >>> 30)) * 1664525))
        + key.getD j 0 + j)
      let mt := mt.set i v
      let mt2 := if i + 1 ≥ 624 then mt.set 0 (mt.getD 623 0) else mt
      let i2 := if i + 1 ≥ 624 then 1 else i + 1
      let j2 := if j + 1 ≥ keyLen then 0 else j + 1
      (mt2, i2, j2))
    (mt0, 1, 0)
  let s2 := (List.range 623).foldl
    (fun (st : List Nat × Nat) _ =>
      let mt := st.1
      let i := st.2
      let prev := mt.getD (i - 1) 0
      let v := mask32 ((((mt.getD i 0) ^^^ mask32 ((prev ^^^ (prev >>> 30)) * 1566083941))
        + 4294967296) - i)
      let mt := mt.set i v
      let mt2 := if i + 1 ≥ 624 then mt.set 0 (mt.getD 623 0) else mt
      let i2 := if i + 1 ≥ 624 then 1 else i + 1
      (mt2, i2))
    (s1.1, s1.2.1)
  (s2.1).set 0 2147483648

/-- The MT19937 tempering constant selector `mag01[y & 1]`. -/
def mtMag (y : Nat) : Nat := if y % 2 = 1 then 2567483615 else 0

/-- One full regeneration sweep of the MT19937 state (the `mti >= N` branch of
`genrand_uint32`). -/
def mtTwist (mt : List Nat) : List Nat :=
  let mt := (List.range 623).foldl
    (fun mt kk =>
      let y := ((mt.getD kk 0) &&& 2147483648) ||| ((mt.getD (kk + 1) 0) &&& 2147483647)
      mt.set kk ((mt.getD ((kk + 397) % 624) 0) ^^^ (y >>> 1) ^^^ mtMag y))
    mt
  let y := ((mt.getD 623 0) &&& 2147483648) ||| ((mt.getD 0 0) &&& 2147483647)
  mt.set 623 ((mt.getD 396 0) ^^^ (y >>> 1) ^^^ mtMag y)

/-- MT19937 generator state: the 624-word vector and the output cursor. -/
structure MTState where
  mt : List Nat
  mti : Nat
deriving DecidableEq, Repr

/-- MT19937 `genrand_uint32`: twist when exhausted, then temper one word. -/
def genrandUint32 (st : MTState) : Nat × MTState :=
  let st := if st.mti ≥ 624 then MTState.mk (mtTwist st.mt) 0 else st
  let y := st.mt.getD st.mti 0
  let y := y ^^^ (y >>> 11)
  let y := y ^^^ ((y <<< 7) &&& 2636928640)
  let y := y ^^^ ((y <<< 15) &&& 4022730752)
  let y := y ^^^ (y >>> 18)
  (y, MTState.mk st.mt (st.mti + 1))

/-- `getrandbits(k)` for `k ≤ 32`: the top `k` bits of one generator word
(CPython composes several words for larger `k`, which `shuffle` only needs
for lists longer than 2^31 elements). -/
def getrandbits (st : MTState) (k : Nat) : Nat × MTState :=
  let p := genrandUint32 st
  (p.1 >>> (32 - k), p.2)

/-- Python `int.bit_length`. -/
def bitLength (n : Nat) : Nat := if n = 0 then 0 else Nat.log2 n + 1

/-- The rejection loop of `_randbelow_with_getrandbits` (`while r >= n`).
CPython retries unboundedly with termination only almost surely; the model
bounds the retries by fuel and falls back to `r % n`, which also keeps the
result below `n`. -/
def randbelowLoop : Nat → MTState → Nat → Nat → Nat → Nat × MTState
  | 0, st, n, _, r => (r % n, st)
  | fuel + 1, st, n, k, r =>
    if r < n then (r, st)
    else
      let p := getrandbits st k
      randbelowLoop fuel p.2 n k p.1

/-- `Random._randbelow(n)`: draw `bit_length n` bits, retrying while the draw
is `≥ n`. -/
def randbelow (st : MTState) (n : Nat) : Nat × MTState :=
  let k := bitLength n
  let p := getrandbits st k
  randbelowLoop 64 p.2 n k p.1

/-- The 32-bit little-endian words CPython feeds to `init_by_array` for an
integer seed (`[0]` for seed 0). -/
def natWords (n : Nat) : List Nat :=
  if h : n = 0 then []
  else (n % 4294967296) :: natWords (n / 4294967296)
  decreasing_by exact Nat.div_lt_self (Nat.pos_of_ne_zero h) (by norm_num)

/-- Seed-to-key conversion of `random_seed` for a non-negative integer. -/
def seedKey (n : Nat) : List Nat :=
  if n = 0 then [0] else natWords n

/-- `random.Random(seed)`: state after seeding (`mti = 624`, so the first
draw twists). -/
def mtInit (seed : Nat) : MTState :=
  MTState.mk (initByArray (seedKey seed)) 624

/-- `x[i], x[j] = x[j], x[i]` on a list (no-op when an index is out of
range, which the shuffle loop never produces). -/
def lswap {α : Type} (l : List α) (i j : Nat) : List α :=
  match l.get? i, l.get? j with
  | some a, some b => (l.set i b).set j a
  | _, _ => l

/-- The Fisher-Yates loop of `Random.shuffle`:
`for i in reversed(range(1, len(x))): j = _randbelow(i+1); swap`. -/
def shuffleGo {α : Type} : MTState → List α → Nat → List α
  | _, l, 0 => l
  | st, l, i + 1 =>
    let p := randbelow st (i + 2)
    shuffleGo p.2 (lswap l (i + 1) p.1) i

/-- `rng = random.Random(seed); rng.shuffle(l)`. -/
def pyShuffle {α : Type} (seed : Nat) (l : List α) : List α :=
  shuffleGo (mtInit seed) l (l.length - 1)

/-! ### The sampler -/

/-- The state of a `PairRepeatSampler` after `__init__` (the `data_source`
reference itself is not kept: only its length and the scanned fields matter). -/
structure PairRepeatSampler where
  n : Nat
  mini_repeat_count : Nat
  shuffle : Bool
  seed : Nat
  rank : Nat
  world_size : Nat
  epoch : Nat
  pair_to : List (Int × List (Int × Nat))
  pairs : List Int
deriving DecidableEq, Repr

/-- One step of the construction scan:
`pair_to[pid][side] = idx` on a `defaultdict(dict)`. -/
def scanStep (pt : List (Int × List (Int × Nat))) (idx : Nat) (ex : Example) :
    List (Int × List (Int × Nat)) :=
  let sub := (dictFind? pt ex.pair_id).getD []
  dictInsert pt ex.pair_id (dictInsert sub ex.side idx)

/-- The scan loop `for idx in range(self.n): ...` over pre-indexed examples. -/
def scanFold (pt : List (Int × List (Int × Nat))) (l : List (Nat × Example)) :
    List (Int × List (Int × Nat)) :=
  l.foldl (fun pt p => scanStep pt p.1 p.2) pt

/-- The full construction scan: `pair_to` before completeness filtering. -/
def buildPairTo (ds : Dataset) : List (Int × List (Int × Nat)) :=
  scanFold [] ds.enum

/-- The completeness predicate of the dict comprehension:
`0 in d and 1 in d`. -/
def completeEntry (e : Int × List (Int × Nat)) : Bool :=
  dictContains e.2 0 && dictContains e.2 1

/-- `{pid: d for pid, d in pair_to.items() if 0 in d and 1 in d}`
(a dict comprehension over a dict preserves iteration order, and all keys
are distinct, so it is a plain filter). -/
def filterComplete (pt : List (Int × List (Int × Nat))) :
    List (Int × List (Int × Nat)) :=
  pt.filter completeEntry

/-- `PairRepeatSampler.__init__`: scan, filter, raise `ValueError` when no
complete pair remains, else store the mapping, its key list and the scalar
configuration (with `epoch = 0`). -/
def mkSampler (ds : Dataset) (mini_repeat_count : Nat) (shuffle : Bool)
    (seed rank world_size : Nat) : Except String PairRepeatSampler :=
  let pt := filterComplete (buildPairTo ds)
  if pt.length = 0 then
    .error "No complete pairs found (need both side=0 and side=1 for each pair_id)."
  else
    .ok ⟨ds.length, mini_repeat_count, shuffle, seed, rank, world_size, 0, pt, dictKeys pt⟩

/-- `PairRepeatSampler.set_epoch`. -/
def set_epoch (s : PairRepeatSampler) (epoch : Nat) : PairRepeatSampler :=
  { s with epoch := epoch }

/-- Fueled take-one-drop-some loop behind `everyNth` (the fuel, always at
least the list length, only forces structural recursion). -/
def everyNthF {α : Type} : Nat → List α → Nat → List α
  | 0, _, _ => []
  | _ + 1, [], _ => []
  | fuel + 1, x :: xs, w => x :: everyNthF fuel (xs.drop (w - 1)) w

/-- Python slicing `l[r::w]` for step `w ≥ 1`: every `w`-th element.
(`w = 0` would raise `ValueError` in Python; the model is only used with
`world_size ≥ 1`.) -/
def everyNth {α : Type} (l : List α) (w : Nat) : List α :=
  everyNthF l.length l w

/-- `l[r::w]`. -/
def strideSlice {α : Type} (l : List α) (r w : Nat) : List α :=
  everyNth (l.drop r) w

/-- `self.pair_to[pid][side]` as an optional lookup. -/
def lookup2 (pt : List (Int × List (Int × Nat))) (pid side : Int) : Option Nat :=
  (dictFind? pt pid).bind fun sub => dictFind? sub side

/-- The loop body of `__iter__` for one pair: look up both sides (a missing
key would raise `KeyError`, modelled as `none`) and yield the side-0 index
`K` times then the side-1 index `K` times. -/
def emitPair (pt : List (Int × List (Int × Nat))) (K : Nat) (pid : Int) :
    Option (List Nat) :=
  match dictFind? pt pid with
  | none => none
  | some sub =>
    match dictFind? sub 0, dictFind? sub 1 with
    | some idx0, some idx1 => some (List.replicate K idx0 ++ List.replicate K idx1)
    | _, _ => none

/-- The emission loop `for pid in pairs: ...` of `__iter__`. -/
def iterLoopM (pt : List (Int × List (Int × Nat))) (K : Nat) :
    List Int → Option (List Nat)
  | [] => some []
  | pid :: rest =>
    match emitPair pt K pid, iterLoopM pt K rest with
    | some blk, some tail => some (blk ++ tail)
    | _, _ => none

/-- The pair order of one pass: `pairs = list(self.pairs)` optionally
shuffled by `random.Random(self.seed + self.epoch)`. -/
def orderedPairs (s : PairRepeatSampler) : List Int :=
  if s.shuffle then pyShuffle (s.seed + s.epoch) s.pairs else s.pairs

/-- This worker's share: `pairs[self.rank :: self.world_size]`. -/
def localPairs (s : PairRepeatSampler) : List Int :=
  strideSlice (orderedPairs s) s.rank s.world_size

/-- `PairRepeatSampler.__iter__`: the whole (finite) sequence of yielded
dataset indices of one pass, `none` if any dict lookup would raise. -/
def iterIndices (s : PairRepeatSampler) : Option (List Nat) :=
  iterLoopM s.pair_to s.mini_repeat_count (localPairs s)

/-- `PairRepeatSampler.__len__`:
`len(self.pairs[self.rank::self.world_size]) * 2 * self.mini_repeat_count`. -/
def samplerLen (s : PairRepeatSampler) : Nat :=
  (strideSlice s.pairs s.rank s.world_size).length * 2 * s.mini_repeat_count

/-! ### Specification-side definitions

These are written from the spec's wording, to be compared with the
definitions above. -/

/-- Whether position `i` of the dataset holds an example with the given
`pair_id` and `side`. -/
def matchAt (ds : Dataset) (i : Nat) (pid side : Int) : Bool :=
  ((ds.get? i).map fun e => e.pair_id == pid && e.side == side).getD false

/-- Whether the dataset contains some example with the given `pair_id` and
`side` ("a side-`side` example occurs"). -/
def hasSideB (ds : Dataset) (pid side : Int) : Bool :=
  ds.any fun e => e.pair_id == pid && e.side == side

/-- A pair id is complete when both sides occur in the dataset. -/
def completeB (ds : Dataset) (pid : Int) : Bool :=
  hasSideB ds pid 0 && hasSideB ds pid 1

/-- Whether the dataset has at least one complete pair. -/
def hasCompletePairB (ds : Dataset) : Bool :=
  ds.any fun e => completeB ds e.pair_id

/-- Discovery order: each pair id listed once, in the order in which it is
first encountered during the construction scan. -/
def discoverAcc (acc : List Int) (ds : Dataset) : List Int :=
  ds.foldl (fun acc e => if e.pair_id ∈ acc then acc else acc ++ [e.pair_id]) acc

/-- Discovery order of all pair ids of a dataset. -/
def discoveryPids (ds : Dataset) : List Int :=
  discoverAcc [] ds

/-- The side-0-block-then-side-1-block a complete pair must contribute
("side-0 index repeated K times immediately followed by side-1 index
repeated K times"). -/
def pairBlock (pt : List (Int × List (Int × Nat))) (K : Nat) (pid : Int) : List Nat :=
  List.replicate K ((lookup2 pt pid 0).getD 0) ++ List.replicate K ((lookup2 pt pid 1).getD 0)

/-- The expected flat emission: one block per selected pair, in order. -/
def emitAll (pt : List (Int × List (Int × Nat))) (K : Nat) : List Int → List Nat
  | [] => []
  | pid :: rest => pairBlock pt K pid ++ emitAll pt K rest

/-- Whether a dataset index was recorded (as a side-0 or side-1 member) in
the built mapping. -/
def recordedB (pt : List (Int × List (Int × Nat))) (m : Nat) : Bool :=
  pt.any fun e => (dictFind? e.2 0 == some m) || (dictFind? e.2 1 == some m)

/-- Whether positions `m` and `j` of the dataset hold examples with the same
`(pair_id, side)` combination. -/
def sameKeyAt (ds : Dataset) (m j : Nat) : Bool :=
  ((ds.get? m).bind fun a =>
    (ds.get? j).map fun b => a.pair_id == b.pair_id && a.side == b.side).getD false

/-- Whether a construction attempt failed. -/
def isError {ε α : Type} : Except ε α → Bool
  | .error _ => true
  | .ok _ => false

/-- The worker rank a pair id is assigned to under stride sharding: its
position in the (possibly shuffled) pair order, modulo the world size. -/
def assignedRank (s : PairRepeatSampler) (pid : Int) : Nat :=
  (List.indexOf pid (orderedPairs s)) % s.world_size

/-- The length the stride slice of an `n`-element list must have. -/
def strideLen : Nat → Nat → Nat
  | 0, _ => 0
  | n + 1, w => strideLen (n - (w - 1)) w + 1

/-- The last position in an indexed example list holding an example with the
given fields (later positions overwrite earlier ones, as the scan's
assignments do). -/
def lastMatch (pid side : Int) : List (Nat × Example) → Option Nat
  | [] => none
  | p :: l =>
    (lastMatch pid side l).or (if p.2.pair_id = pid ∧ p.2.side = side then some p.1 else none)

/-! ### Dictionary lemmas -/

theorem dictFind?_dictInsert {β : Type} (d : List (Int × β)) (k k' : Int) (v : β) :
    dictFind? (dictInsert d k v) k' = if k' = k then some v else dictFind? d k' := by
  induction d with
  | nil =>
    simp only [dictInsert, dictFind?]
    by_cases h : k' = k
    · simp [h]
    · rw [if_neg (fun h2 : k = k' => h h2.symm), if_neg h]
  | cons hd tl ih =>
    obtain ⟨k0, v0⟩ := hd
    simp only [dictInsert]
    by_cases h0 : k0 = k
    · subst h0
      simp only [if_pos rfl, dictFind?]
      by_cases h : k' = k0
      · simp [h]
      · rw [if_neg (fun h2 : k0 = k' => h h2.symm), if_neg h,
          if_neg (fun h2 : k0 = k' => h h2.symm)]
    · simp only [if_neg h0, dictFind?, ih]
      by_cases h : k' = k
      · subst h
        have h0' : ¬ k0 = k' := h0
        simp [h0']
      · simp only [if_neg h]

theorem dictKeys_dictInsert {β : Type} (d : List (Int × β)) (k : Int) (v : β) :
    dictKeys (dictInsert d k v) =
      if dictContains d k then dictKeys d else dictKeys d ++ [k] := by
  induction d with
  | nil => simp [dictInsert, dictKeys, dictContains, dictFind?]
  | cons hd tl ih =>
    obtain ⟨k0, v0⟩ := hd
    simp only [dictInsert, dictContains, dictFind?]
    by_cases h0 : k0 = k
    · subst h0; simp [dictKeys]
    · simp only [if_neg h0, dictKeys, List.map_cons]
      simp only [dictKeys, dictContains] at ih
      rw [ih]
      by_cases hc : (dictFind? tl k).isSome
      · simp [hc]
      · simp [hc]

theorem dictContains_iff_mem {β : Type} (d : List (Int × β)) (k : Int) :
    dictContains d k = true ↔ k ∈ dictKeys d := by
  induction d with
  | nil => simp [dictContains, dictFind?, dictKeys]
  | cons hd tl ih =>
    obtain ⟨k0, v0⟩ := hd
    by_cases h0 : k0 = k
    · subst h0; simp [dictContains, dictFind?, dictKeys]
    · have h0' : ¬ k = k0 := fun h => h0 h.symm
      simp only [dictContains, dictFind?, if_neg h0, dictKeys, List.map_cons, List.mem_cons]
      simp only [dictContains, dictKeys] at ih
      rw [ih]
      simp [h0']

theorem dictKeys_nodup_dictInsert {β : Type} (d : List (Int × β)) (k : Int) (v : β)
    (h : (dictKeys d).Nodup) : (dictKeys (dictInsert d k v)).Nodup := by
  rw [dictKeys_dictInsert]
  by_cases hc : dictContains d k
  · simpa [hc] using h
  · have hk : k ∉ dictKeys d := fun hm => hc ((dictContains_iff_mem d k).2 hm)
    rw [if_neg (by simp [hc])]
    refine List.Nodup.append h (List.nodup_singleton k) ?_
    intro a ha hb
    rw [List.mem_singleton] at hb
    exact hk (hb ▸ ha)

theorem mem_of_dictFind?_eq_some {β : Type} {d : List (Int × β)} {k : Int} {v : β}
    (h : dictFind? d k = some v) : (k, v) ∈ d := by
  induction d with
  | nil => simp [dictFind?] at h
  | cons hd tl ih =>
    obtain ⟨k0, v0⟩ := hd
    simp only [dictFind?] at h
    by_cases h0 : k0 = k
    · subst h0
      rw [if_pos rfl] at h
      injection h with h2
      subst h2
      exact List.mem_cons_self _ _
    · rw [if_neg h0] at h
      exact List.mem_cons_of_mem _ (ih h)

theorem dictFind?_eq_some_of_mem {β : Type} {d : List (Int × β)} {k : Int} {v : β}
    (hnd : (dictKeys d).Nodup) (h : (k, v) ∈ d) : dictFind? d k = some v := by
  induction d with
  | nil => simp at h
  | cons hd tl ih =>
    obtain ⟨k0, v0⟩ := hd
    have hnd2 : (dictKeys tl).Nodup ∧ k0 ∉ dictKeys tl := by
      simp only [dictKeys, List.map_cons, List.nodup_cons] at hnd
      exact ⟨hnd.2, hnd.1⟩
    rcases List.mem_cons.1 h with h | h
    · injection h with hk hv
      subst hk; subst hv
      simp [dictFind?]
    · have hk : ¬ k0 = k := by
        intro h0
        exact hnd2.2 (h0 ▸ List.mem_map_of_mem Prod.fst h)
      simpa [dictFind?, hk] using ih hnd2.1 h

theorem dictKeys_filter_subset {β : Type} (p : Int × β → Bool) (d : List (Int × β)) :
    dictKeys (d.filter p) ⊆ dictKeys d :=
  (List.Sublist.map Prod.fst (List.filter_sublist d)).subset

theorem dictKeys_filter_nodup {β : Type} (p : Int × β → Bool) (d : List (Int × β))
    (hnd : (dictKeys d).Nodup) : (dictKeys (d.filter p)).Nodup :=
  (List.Sublist.map Prod.fst (List.filter_sublist d)).nodup hnd

theorem dictFind?_eq_none_of_not_mem {β : Type} {d : List (Int × β)} {k : Int}
    (h : k ∉ dictKeys d) : dictFind? d k = none := by
  cases hf : dictFind? d k with
  | none => rfl
  | some v => exact absurd ((dictContains_iff_mem d k).1 (by simp [dictContains, hf])) h

theorem dictFind?_filter {β : Type} (p : Int × β → Bool) (d : List (Int × β)) (k : Int)
    (hnd : (dictKeys d).Nodup) :
    dictFind? (d.filter p) k =
      match dictFind? d k with
      | some v => if p (k, v) then some v else none
      | none => none := by
  induction d with
  | nil => simp [dictFind?]
  | cons hd tl ih =>
    obtain ⟨k0, v0⟩ := hd
    have hnd2 : (dictKeys tl).Nodup ∧ k0 ∉ dictKeys tl := by
      simp only [dictKeys, List.map_cons, List.nodup_cons] at hnd
      exact ⟨hnd.2, hnd.1⟩
    by_cases h0 : k0 = k
    · subst h0
      cases hp : p (k0, v0) with
      | true => simp [List.filter_cons, hp, dictFind?]
      | false =>
        have hnone : dictFind? (tl.filter p) k0 = none :=
          dictFind?_eq_none_of_not_mem
            (fun hm => hnd2.2 (dictKeys_filter_subset p tl hm))
        simp [List.filter_cons, hp, dictFind?, hnone]
    · cases hp : p (k0, v0) with
      | true => simp [List.filter_cons, hp, dictFind?, h0, ih hnd2.1]
      | false => simp [List.filter_cons, hp, dictFind?, h0, ih hnd2.1]

/-! ### Construction-scan lemmas -/

theorem opt_some_or {α : Type} (a : α) (o : Option α) : (some a).or o = some a := rfl

theorem opt_none_or {α : Type} (o : Option α) : (Option.or none o) = o := rfl

theorem lookup2_scanStep (pt : List (Int × List (Int × Nat))) (idx : Nat) (ex : Example)
    (pid side : Int) :
    lookup2 (scanStep pt idx ex) pid side =
      if pid = ex.pair_id ∧ side = ex.side then some idx else lookup2 pt pid side := by
  by_cases hp : pid = ex.pair_id
  · subst hp
    by_cases hs : side = ex.side
    · subst hs
      simp [scanStep, lookup2, dictFind?_dictInsert]
    · have hs2 : ¬ ex.side = side := fun h => hs h.symm
      cases hf : dictFind? pt ex.pair_id with
      | none => simp [scanStep, lookup2, dictFind?_dictInsert, hf, hs, hs2, dictFind?]
      | some sub => simp [scanStep, lookup2, dictFind?_dictInsert, hf, hs, hs2]
  · rw [if_neg (fun h => hp h.1)]
    simp [scanStep, lookup2, dictFind?_dictInsert, hp]

theorem lastMatch_cons (pid side : Int) (p : Nat × Example) (l : List (Nat × Example)) :
    lastMatch pid side (p :: l) =
      (lastMatch pid side l).or
        (if p.2.pair_id = pid ∧ p.2.side = side then some p.1 else none) := rfl

theorem lookup2_scanFold (l : List (Nat × Example)) (pt : List (Int × List (Int × Nat)))
    (pid side : Int) :
    lookup2 (scanFold pt l) pid side = (lastMatch pid side l).or (lookup2 pt pid side) := by
  induction l generalizing pt with
  | nil => simp [scanFold, lastMatch, Option.or]
  | cons p l ih =>
    have hstep : scanFold pt (p :: l) = scanFold (scanStep pt p.1 p.2) l := rfl
    rw [hstep, ih, lookup2_scanStep, lastMatch_cons]
    by_cases hm : p.2.pair_id = pid ∧ p.2.side = side
    · have hm2 : pid = p.2.pair_id ∧ side = p.2.side := ⟨hm.1.symm, hm.2.symm⟩
      rw [if_pos hm2, if_pos hm]
      cases hl : lastMatch pid side l <;> rfl
    · have hm2 : ¬ (pid = p.2.pair_id ∧ side = p.2.side) :=
        fun h => hm ⟨h.1.symm, h.2.symm⟩
      rw [if_neg hm2, if_neg hm, Option.or_none]

theorem dictKeys_scanStep (pt : List (Int × List (Int × Nat))) (idx : Nat) (ex : Example) :
    dictKeys (scanStep pt idx ex) =
      if ex.pair_id ∈ dictKeys pt then dictKeys pt else dictKeys pt ++ [ex.pair_id] := by
  have h : dictKeys (scanStep pt idx ex) =
      if dictContains pt ex.pair_id then dictKeys pt else dictKeys pt ++ [ex.pair_id] :=
    dictKeys_dictInsert pt ex.pair_id _
  rw [h]
  by_cases hc : dictContains pt ex.pair_id
  · rw [if_pos hc, if_pos ((dictContains_iff_mem _ _).1 hc)]
  · have hm : ex.pair_id ∉ dictKeys pt := fun hm => hc ((dictContains_iff_mem _ _).2 hm)
    rw [if_neg hc, if_neg hm]

theorem dictKeys_scanFold (l : List (Nat × Example)) (pt : List (Int × List (Int × Nat))) :
    dictKeys (scanFold pt l) = discoverAcc (dictKeys pt) (l.map Prod.snd) := by
  induction l generalizing pt with
  | nil => simp [scanFold, discoverAcc]
  | cons p l ih =>
    have hstep : scanFold pt (p :: l) = scanFold (scanStep pt p.1 p.2) l := rfl
    rw [hstep, ih, dictKeys_scanStep]
    simp [discoverAcc]

theorem dictKeys_scanFold_nodup (l : List (Nat × Example))
    (pt : List (Int × List (Int × Nat))) (h : (dictKeys pt).Nodup) :
    (dictKeys (scanFold pt l)).Nodup := by
  induction l generalizing pt with
  | nil => simpa [scanFold] using h
  | cons p l ih =>
    have hstep : scanFold pt (p :: l) = scanFold (scanStep pt p.1 p.2) l := rfl
    rw [hstep]
    exact ih _ (dictKeys_nodup_dictInsert _ _ _ h)

theorem matchAt_cons_zero (e : Example) (ds : Dataset) (pid side : Int) :
    matchAt (e :: ds) 0 pid side = (e.pair_id == pid && e.side == side) := rfl

theorem matchAt_cons_succ (e : Example) (ds : Dataset) (j : Nat) (pid side : Int) :
    matchAt (e :: ds) (j + 1) pid side = matchAt ds j pid side := rfl

theorem matchAt_nil (j : Nat) (pid side : Int) : matchAt [] j pid side = false := by
  simp [matchAt]

/-- What the overwrite-fold computes on the indexed tail `enumFrom n ds`:
when it returns `some i`, position `i - n` holds a matching example and no
later position does; it returns `none` exactly when no position matches. -/
theorem lastMatch_enumFrom (ds : Dataset) (pid side : Int) : ∀ n : Nat,
    (∀ i, lastMatch pid side (List.enumFrom n ds) = some i →
      n ≤ i ∧ i - n < ds.length ∧ matchAt ds (i - n) pid side = true ∧
      ∀ j, matchAt ds j pid side = true → n + j ≤ i) ∧
    (lastMatch pid side (List.enumFrom n ds) = none ↔
      ∀ j, matchAt ds j pid side = false) := by
  induction ds with
  | nil =>
    intro n
    refine ⟨fun i hi => by simp [List.enumFrom, lastMatch] at hi, ?_⟩
    simp [List.enumFrom, lastMatch, matchAt_nil]
  | cons e ds ih =>
    intro n
    have hcons : lastMatch pid side (List.enumFrom n (e :: ds)) =
        (lastMatch pid side (List.enumFrom (n + 1) ds)).or
          (if e.pair_id = pid ∧ e.side = side then some n else none) := by
      have := lastMatch_cons pid side (n, e) (List.enumFrom (n + 1) ds)
      simpa [List.enumFrom] using this
    constructor
    · intro i hi
      rw [hcons] at hi
      by_cases hm : e.pair_id = pid ∧ e.side = side
      · cases hrest : lastMatch pid side (List.enumFrom (n + 1) ds) with
        | none =>
          rw [hrest, opt_none_or, if_pos hm] at hi
          injection hi with hi
          subst hi
          refine ⟨le_refl n, by simp, ?_, ?_⟩
          · simp [matchAt_cons_zero, hm.1, hm.2]
          · intro j hj
            cases j with
            | zero => omega
            | succ j =>
              rw [matchAt_cons_succ] at hj
              rw [((ih (n + 1)).2).1 hrest j] at hj
              exact absurd hj (by simp)
        | some i0 =>
          rw [hrest, opt_some_or] at hi
          injection hi with hi
          subst hi
          obtain ⟨h1, h2, h3, h4⟩ := (ih (n + 1)).1 i0 hrest
          refine ⟨by omega, by simp; omega, ?_, ?_⟩
          · have he : i0 - n = (i0 - (n + 1)) + 1 := by omega
            rw [he, matchAt_cons_succ]
            exact h3
          · intro j hj
            cases j with
            | zero => omega
            | succ j =>
              rw [matchAt_cons_succ] at hj
              have := h4 j hj
              omega
      · cases hrest : lastMatch pid side (List.enumFrom (n + 1) ds) with
        | none => rw [hrest, opt_none_or, if_neg hm] at hi; exact absurd hi (by simp)
        | some i0 =>
          rw [hrest, opt_some_or] at hi
          injection hi with hi
          subst hi
          obtain ⟨h1, h2, h3, h4⟩ := (ih (n + 1)).1 i0 hrest
          refine ⟨by omega, by simp; omega, ?_, ?_⟩
          · have he : i0 - n = (i0 - (n + 1)) + 1 := by omega
            rw [he, matchAt_cons_succ]
            exact h3
          · intro j hj
            cases j with
            | zero =>
              rw [matchAt_cons_zero] at hj
              simp only [Bool.and_eq_true, beq_iff_eq] at hj
              exact absurd hj hm
            | succ j =>
              rw [matchAt_cons_succ] at hj
              have := h4 j hj
              omega
    · rw [hcons]
      by_cases hm : e.pair_id = pid ∧ e.side = side
      · constructor
        · intro h
          exfalso
          cases hrest : lastMatch pid side (List.enumFrom (n + 1) ds) with
          | none =>
            rw [hrest, opt_none_or, if_pos hm] at h
            exact absurd h (by simp)
          | some i0 =>
            rw [hrest, opt_some_or] at h
            exact absurd h (by simp)
        · intro h
          have h0 := h 0
          rw [matchAt_cons_zero, hm.1, hm.2] at h0
          simp at h0
      · have hor : (lastMatch pid side (List.enumFrom (n + 1) ds)).or
            (if e.pair_id = pid ∧ e.side = side then some n else none)
            = lastMatch pid side (List.enumFrom (n + 1) ds) := by
          rw [if_neg hm, Option.or_none]
        rw [hor, (ih (n + 1)).2]
        constructor
        · intro h j
          cases j with
          | zero =>
            rw [matchAt_cons_zero]
            cases hb : (e.pair_id == pid && e.side == side) with
            | false => rfl
            | true =>
              simp only [Bool.and_eq_true, beq_iff_eq] at hb
              exact absurd ⟨hb.1, hb.2⟩ hm
          | succ j => rw [matchAt_cons_succ]; exact h j
        · intro h j
          have := h (j + 1)
          rwa [matchAt_cons_succ] at this

theorem hasSideB_iff (ds : Dataset) (pid side : Int) :
    hasSideB ds pid side = true ↔ ∃ j, matchAt ds j pid side = true := by
  simp only [hasSideB, List.any_eq_true]
  constructor
  · rintro ⟨e, he, hm⟩
    obtain ⟨j, hj⟩ := List.mem_iff_get?.1 he
    refine ⟨j, ?_⟩
    simp only [matchAt]
    rw [hj]
    simpa using hm
  · rintro ⟨j, hj⟩
    simp only [matchAt] at hj
    cases hg : ds.get? j with
    | none => rw [hg] at hj; simp at hj
    | some e =>
      rw [hg] at hj
      exact ⟨e, List.get?_mem hg, hj⟩

/-! ### Shuffle is a permutation -/

theorem get_cons_set_perm {α : Type} :
    ∀ (xs : List α) (m : Nat) (y a : α), xs.get? m = some a →
      List.Perm (a :: xs.set m y) (y :: xs) := by
  intro xs
  induction xs with
  | nil => intro m y a h; simp [List.get?] at h
  | cons z t ih =>
    intro m y a h
    cases m with
    | zero =>
      simp only [List.get?] at h
      injection h with h
      subst h
      simpa [List.set] using List.Perm.swap y z t
    | succ m =>
      simp only [List.get?] at h
      have htl := ih m y a h
      have h1 : a :: (z :: t).set (m + 1) y = a :: z :: t.set m y := by simp [List.set]
      rw [h1]
      exact List.Perm.trans (List.Perm.swap z a (t.set m y))
        (List.Perm.trans (List.Perm.cons z htl) (List.Perm.swap y z t))

theorem set_set_perm {α : Type} :
    ∀ (xs : List α) (i j : Nat) (a b : α), xs.get? i = some a → xs.get? j = some b →
      List.Perm ((xs.set i b).set j a) xs := by
  intro xs
  induction xs with
  | nil => intro i j a b hi hj; simp [List.get?] at hi
  | cons x t ih =>
    intro i j a b hi hj
    cases i with
    | zero =>
      simp only [List.get?] at hi
      injection hi with hi
      subst hi
      cases j with
      | zero =>
        simp only [List.get?] at hj
        injection hj with hj
        subst hj
        simp [List.set]
      | succ j =>
        simp only [List.get?] at hj
        simp only [List.set]
        exact get_cons_set_perm t j x b hj
    | succ i =>
      simp only [List.get?] at hi
      cases j with
      | zero =>
        simp only [List.get?] at hj
        injection hj with hj
        subst hj
        simp only [List.set]
        exact get_cons_set_perm t i x a hi
      | succ j =>
        simp only [List.get?] at hj
        simp only [List.set]
        exact List.Perm.cons x (ih i j a b hi hj)

theorem lswap_perm {α : Type} (l : List α) (i j : Nat) : List.Perm (lswap l i j) l := by
  unfold lswap
  cases hi : l.get? i with
  | none => exact List.Perm.refl l
  | some a =>
    cases hj : l.get? j with
    | none => exact List.Perm.refl l
    | some b => exact set_set_perm l i j a b hi hj

theorem shuffleGo_perm {α : Type} :
    ∀ (i : Nat) (st : MTState) (l : List α), List.Perm (shuffleGo st l i) l := by
  intro i
  induction i with
  | zero => intro st l; exact List.Perm.refl l
  | succ i ih =>
    intro st l
    exact List.Perm.trans (ih _ _) (lswap_perm l (i + 1) _)

theorem pyShuffle_perm {α : Type} (seed : Nat) (l : List α) :
    List.Perm (pyShuffle seed l) l :=
  shuffleGo_perm _ _ _

theorem pyShuffle_length {α : Type} (seed : Nat) (l : List α) :
    (pyShuffle seed l).length = l.length :=
  (pyShuffle_perm seed l).length_eq

theorem pyShuffle_mem {α : Type} (seed : Nat) (l : List α) (a : α) :
    a ∈ pyShuffle seed l ↔ a ∈ l :=
  (pyShuffle_perm seed l).mem_iff

theorem pyShuffle_nodup {α : Type} (seed : Nat) (l : List α) (h : l.Nodup) :
    (pyShuffle seed l).Nodup :=
  (pyShuffle_perm seed l).nodup_iff.2 h

/-! ### Stride-slice lemmas -/

theorem everyNthF_eq_of_ge {α : Type} :
    ∀ (f1 f2 : Nat) (l : List α) (w : Nat), l.length ≤ f1 → l.length ≤ f2 →
      everyNthF f1 l w = everyNthF f2 l w := by
  intro f1
  induction f1 with
  | zero =>
    intro f2 l w h1 _
    rw [Nat.le_zero, List.length_eq_zero] at h1
    subst h1
    cases f2 <;> rfl
  | succ f1 ih =>
    intro f2 l w h1 h2
    cases l with
    | nil => cases f2 <;> rfl
    | cons x xs =>
      cases f2 with
      | zero => simp at h2
      | succ f2 =>
        show x :: everyNthF f1 (xs.drop (w - 1)) w = x :: everyNthF f2 (xs.drop (w - 1)) w
        congr 1
        apply ih
        · simp only [List.length_drop]
          simp only [List.length_cons] at h1
          omega
        · simp only [List.length_drop]
          simp only [List.length_cons] at h2
          omega

theorem everyNth_nil {α : Type} (w : Nat) : everyNth ([] : List α) w = [] := rfl

theorem everyNth_cons {α : Type} (x : α) (xs : List α) (w : Nat) :
    everyNth (x :: xs) w = x :: everyNth (xs.drop (w - 1)) w := by
  show x :: everyNthF xs.length (xs.drop (w - 1)) w
    = x :: everyNthF (xs.drop (w - 1)).length (xs.drop (w - 1)) w
  congr 1
  apply everyNthF_eq_of_ge
  · simp [List.length_drop]
  · exact le_refl _

theorem everyNth_get? {α : Type} :
    ∀ (k : Nat) (l : List α) (w : Nat), 1 ≤ w →
      (everyNth l w).get? k = l.get? (k * w) := by
  intro k
  induction k with
  | zero =>
    intro l w _
    cases l with
    | nil => rw [everyNth_nil]; rfl
    | cons x xs => rw [everyNth_cons, Nat.zero_mul]; rfl
  | succ k ih =>
    intro l w hw
    cases l with
    | nil => rw [everyNth_nil]; rfl
    | cons x xs =>
      have h1 : (everyNth (x :: xs) w).get? (k + 1) = (everyNth (xs.drop (w - 1)) w).get? k := by
        rw [everyNth_cons]
        rfl
      rw [h1, ih _ _ hw, List.get?_drop]
      have hpos : 1 ≤ (k + 1) * w := Nat.le_trans hw (Nat.le_mul_of_pos_left w (Nat.succ_pos k))
      have h2 : (x :: xs).get? ((k + 1) * w) = xs.get? ((k + 1) * w - 1) := by
        cases hcw : (k + 1) * w with
        | zero => omega
        | succ m => simp [List.get?]
      rw [h2]
      congr 1
      rw [Nat.succ_mul]
      omega

theorem everyNth_length {α : Type} :
    ∀ (n : Nat) (l : List α) (w : Nat), l.length ≤ n →
      (everyNth l w).length = strideLen l.length w := by
  intro n
  induction n with
  | zero =>
    intro l w h
    rw [Nat.le_zero, List.length_eq_zero] at h
    subst h
    simp [everyNth_nil, strideLen]
  | succ n ih =>
    intro l w h
    cases l with
    | nil => simp [everyNth_nil, strideLen]
    | cons x xs =>
      have hd : (xs.drop (w - 1)).length ≤ n := by
        simp only [List.length_drop]
        simp only [List.length_cons] at h
        omega
      have : (everyNth (x :: xs) w).length = (everyNth (xs.drop (w - 1)) w).length + 1 := by
        rw [everyNth_cons]; rfl
      rw [this, ih _ _ hd]
      simp only [List.length_drop, List.length_cons]
      conv_rhs => rw [strideLen]

theorem strideSlice_length_congr {α β : Type} (l : List α) (l2 : List β) (r w : Nat)
    (h : l.length = l2.length) :
    (strideSlice l r w).length = (strideSlice l2 r w).length := by
  unfold strideSlice
  rw [everyNth_length (l.drop r).length _ w (le_refl _),
    everyNth_length (l2.drop r).length _ w (le_refl _)]
  simp [List.length_drop, h]

theorem strideSlice_get? {α : Type} (l : List α) (r w k : Nat) (hw : 1 ≤ w) :
    (strideSlice l r w).get? k = l.get? (r + k * w) := by
  unfold strideSlice
  rw [everyNth_get? k _ w hw, List.get?_drop]

theorem mem_strideSlice_iff {α : Type} (l : List α) (r w : Nat) (a : α) (hw : 1 ≤ w) :
    a ∈ strideSlice l r w ↔ ∃ k, l.get? (r + k * w) = some a := by
  rw [List.mem_iff_get?]
  constructor
  · rintro ⟨k, hk⟩
    rw [strideSlice_get? l r w k hw] at hk
    exact ⟨k, hk⟩
  · rintro ⟨k, hk⟩
    exact ⟨k, by rw [strideSlice_get? l r w k hw]; exact hk⟩

theorem mem_of_mem_strideSlice {α : Type} {l : List α} {r w : Nat} {a : α}
    (hw : 1 ≤ w) (h : a ∈ strideSlice l r w) : a ∈ l := by
  obtain ⟨k, hk⟩ := (mem_strideSlice_iff l r w a hw).1 h
  exact List.get?_mem hk

/-! ### Construction and iteration lemmas -/

theorem bool_eq_of_true_iff {a b : Bool} (h : a = true ↔ b = true) : a = b := by
  cases a <;> cases b <;> simp_all

theorem enum_eq_enumFrom (ds : Dataset) : ds.enum = List.enumFrom 0 ds := rfl

theorem enumFrom_map_snd {α : Type} : ∀ (n : Nat) (l : List α),
    (List.enumFrom n l).map Prod.snd = l := by
  intro n l
  induction l generalizing n with
  | nil => rfl
  | cons x xs ih => simp [List.enumFrom, ih]

theorem mkSampler_ok {ds : Dataset} {K : Nat} {sh : Bool} {seed r w : Nat}
    {s : PairRepeatSampler} (h : mkSampler ds K sh seed r w = .ok s) :
    s.pair_to = filterComplete (buildPairTo ds) ∧
    s.pairs = dictKeys (filterComplete (buildPairTo ds)) ∧
    s.n = ds.length ∧ s.mini_repeat_count = K ∧ s.shuffle = sh ∧
    s.seed = seed ∧ s.rank = r ∧ s.world_size = w ∧ s.epoch = 0 := by
  simp only [mkSampler] at h
  split at h
  · exact Except.noConfusion h
  · injection h with h
    subst h
    exact ⟨rfl, rfl, rfl, rfl, rfl, rfl, rfl, rfl, rfl⟩

theorem mkSampler_isError_iff (ds : Dataset) (K : Nat) (sh : Bool) (seed r w : Nat) :
    isError (mkSampler ds K sh seed r w) = true ↔
      (filterComplete (buildPairTo ds)).length = 0 := by
  simp only [mkSampler]
  split <;> rename_i hc <;> simp [isError, hc]

theorem buildPairTo_keys_nodup (ds : Dataset) : (dictKeys (buildPairTo ds)).Nodup :=
  dictKeys_scanFold_nodup _ _ (by simp [dictKeys])

theorem lookup2_buildPairTo (ds : Dataset) (pid side : Int) :
    lookup2 (buildPairTo ds) pid side = lastMatch pid side (List.enumFrom 0 ds) := by
  have h : lookup2 (buildPairTo ds) pid side =
      (lastMatch pid side ds.enum).or (lookup2 [] pid side) :=
    lookup2_scanFold ds.enum [] pid side
  rw [h, enum_eq_enumFrom]
  simp [lookup2, dictFind?, Option.or_none]

theorem lookup2_isSome_iff (ds : Dataset) (pid side : Int) :
    (lookup2 (buildPairTo ds) pid side).isSome = true ↔ hasSideB ds pid side = true := by
  rw [lookup2_buildPairTo, hasSideB_iff]
  constructor
  · intro h
    cases hl : lastMatch pid side (List.enumFrom 0 ds) with
    | none => rw [hl] at h; simp at h
    | some i =>
      have hc := (lastMatch_enumFrom ds pid side 0).1 i hl
      exact ⟨i - 0, hc.2.2.1⟩
  · rintro ⟨j, hj⟩
    cases hl : lastMatch pid side (List.enumFrom 0 ds) with
    | none =>
      rw [((lastMatch_enumFrom ds pid side 0).2).1 hl j] at hj
      exact absurd hj (by simp)
    | some i => simp

theorem lookup2_buildPairTo_lt {ds : Dataset} {pid side : Int} {i : Nat}
    (h : lookup2 (buildPairTo ds) pid side = some i) : i < ds.length := by
  rw [lookup2_buildPairTo] at h
  have hc := (lastMatch_enumFrom ds pid side 0).1 i h
  omega

theorem lookup2_buildPairTo_last {ds : Dataset} {pid side : Int} {i : Nat}
    (h : lookup2 (buildPairTo ds) pid side = some i) :
    matchAt ds i pid side = true ∧ ∀ j, matchAt ds j pid side = true → j ≤ i := by
  rw [lookup2_buildPairTo] at h
  have hc := (lastMatch_enumFrom ds pid side 0).1 i h
  refine ⟨by simpa using hc.2.2.1, fun j hj => ?_⟩
  have := hc.2.2.2 j hj
  omega

theorem mem_discoverAcc (ds : Dataset) (pid : Int) : ∀ acc : List Int,
    pid ∈ discoverAcc acc ds ↔ pid ∈ acc ∨ ∃ e ∈ ds, e.pair_id = pid := by
  induction ds with
  | nil => intro acc; simp [discoverAcc]
  | cons e ds ih =>
    intro acc
    have hstep : discoverAcc acc (e :: ds) =
        discoverAcc (if e.pair_id ∈ acc then acc else acc ++ [e.pair_id]) ds := rfl
    rw [hstep, ih]
    by_cases he : e.pair_id ∈ acc
    · rw [if_pos he]
      constructor
      · rintro (h | ⟨x, hx, hpx⟩)
        · exact Or.inl h
        · exact Or.inr ⟨x, List.mem_cons_of_mem e hx, hpx⟩
      · rintro (h | ⟨x, hx, hpx⟩)
        · exact Or.inl h
        · rcases List.mem_cons.1 hx with h | h
          · subst h; exact Or.inl (hpx ▸ he)
          · exact Or.inr ⟨x, h, hpx⟩
    · rw [if_neg he]
      constructor
      · rintro (h | ⟨x, hx, hpx⟩)
        · rcases List.mem_append.1 h with h | h
          · exact Or.inl h
          · rcases List.mem_cons.1 h with h | h
            · exact Or.inr ⟨e, List.mem_cons_self e ds, h.symm⟩
            · exact absurd h (List.not_mem_nil pid)
        · exact Or.inr ⟨x, List.mem_cons_of_mem e hx, hpx⟩
      · rintro (h | ⟨x, hx, hpx⟩)
        · exact Or.inl (List.mem_append.2 (Or.inl h))
        · rcases List.mem_cons.1 hx with h | h
          · subst h
            exact Or.inl (List.mem_append.2 (Or.inr (by simp [hpx])))
          · exact Or.inr ⟨x, h, hpx⟩

theorem keys_buildPairTo (ds : Dataset) : dictKeys (buildPairTo ds) = discoveryPids ds := by
  have h := dictKeys_scanFold ds.enum []
  rw [enum_eq_enumFrom, enumFrom_map_snd] at h
  exact h

theorem completeEntry_eq (ds : Dataset) {pid : Int} {sub : List (Int × Nat)}
    (h : (pid, sub) ∈ buildPairTo ds) : completeEntry (pid, sub) = completeB ds pid := by
  have hf : dictFind? (buildPairTo ds) pid = some sub :=
    dictFind?_eq_some_of_mem (buildPairTo_keys_nodup ds) h
  have hl : ∀ side, dictFind? sub side = lookup2 (buildPairTo ds) pid side := by
    intro side
    simp [lookup2, hf]
  have h0 : dictContains sub 0 = hasSideB ds pid 0 := by
    apply bool_eq_of_true_iff
    rw [show dictContains sub 0 = (dictFind? sub 0).isSome from rfl, hl 0]
    exact lookup2_isSome_iff ds pid 0
  have h1 : dictContains sub 1 = hasSideB ds pid 1 := by
    apply bool_eq_of_true_iff
    rw [show dictContains sub 1 = (dictFind? sub 1).isSome from rfl, hl 1]
    exact lookup2_isSome_iff ds pid 1
  simp [completeEntry, completeB, h0, h1]

theorem dictKeys_cons {β : Type} (e : Int × β) (d : List (Int × β)) :
    dictKeys (e :: d) = e.1 :: dictKeys d := rfl

theorem dictKeys_filter_eq {β : Type} (q : Int × β → Bool) (p : Int → Bool)
    (d : List (Int × β)) (h : ∀ e ∈ d, q e = p e.1) :
    dictKeys (d.filter q) = (dictKeys d).filter p := by
  induction d with
  | nil => simp [dictKeys]
  | cons e d ih =>
    have he := h e (List.mem_cons_self e d)
    have hd : ∀ x ∈ d, q x = p x.1 := fun x hx => h x (List.mem_cons_of_mem e hx)
    cases hq : q e with
    | true =>
      have hp : p e.1 = true := he ▸ hq
      rw [List.filter_cons, if_pos hq, dictKeys_cons, dictKeys_cons,
        List.filter_cons, if_pos hp, ih hd]
    | false =>
      have hp : p e.1 = false := he ▸ hq
      rw [List.filter_cons, if_neg (by simp [hq]), dictKeys_cons,
        List.filter_cons, if_neg (by simp [hp]), ih hd]

theorem pairs_eq_filter (ds : Dataset) :
    dictKeys (filterComplete (buildPairTo ds)) =
      (discoveryPids ds).filter (fun pid => completeB ds pid) := by
  rw [show filterComplete (buildPairTo ds) = (buildPairTo ds).filter completeEntry from rfl]
  rw [dictKeys_filter_eq completeEntry (fun pid => completeB ds pid) _
    (fun e he => by
      obtain ⟨pid, sub⟩ := e
      exact completeEntry_eq ds he)]
  rw [keys_buildPairTo]

theorem mem_pairs_iff (ds : Dataset) (pid : Int) :
    pid ∈ dictKeys (filterComplete (buildPairTo ds)) ↔
      hasSideB ds pid 0 = true ∧ hasSideB ds pid 1 = true := by
  rw [pairs_eq_filter, List.mem_filter]
  constructor
  · rintro ⟨_, hcb⟩
    simpa [completeB, Bool.and_eq_true] using hcb
  · rintro ⟨h0, h1⟩
    refine ⟨?_, by simp [completeB, h0, h1]⟩
    obtain ⟨j, hj⟩ := (hasSideB_iff ds pid 0).1 h0
    cases hg : ds.get? j with
    | none => simp only [matchAt] at hj; rw [hg] at hj; simp at hj
    | some e =>
      simp only [matchAt] at hj
      rw [hg] at hj
      have hj2 : (e.pair_id == pid && e.side == (0 : Int)) = true := hj
      simp only [Bool.and_eq_true, beq_iff_eq] at hj2
      exact (mem_discoverAcc ds pid []).2 (Or.inr ⟨e, List.get?_mem hg, hj2.1⟩)

/-! ### The pair order of one pass -/

theorem orderedPairs_perm (s : PairRepeatSampler) : List.Perm (orderedPairs s) s.pairs := by
  unfold orderedPairs
  by_cases hsh : s.shuffle
  · rw [if_pos hsh]
    exact pyShuffle_perm _ _
  · rw [if_neg hsh]

theorem mem_orderedPairs (s : PairRepeatSampler) (pid : Int) :
    pid ∈ orderedPairs s ↔ pid ∈ s.pairs :=
  (orderedPairs_perm s).mem_iff

theorem orderedPairs_length (s : PairRepeatSampler) :
    (orderedPairs s).length = s.pairs.length :=
  (orderedPairs_perm s).length_eq

theorem orderedPairs_nodup (s : PairRepeatSampler) (h : s.pairs.Nodup) :
    (orderedPairs s).Nodup :=
  (orderedPairs_perm s).nodup_iff.2 h

/-! ### Lookups of a constructed sampler never fail -/

theorem filtered_find (ds : Dataset) (pid : Int)
    (hmem : pid ∈ dictKeys (filterComplete (buildPairTo ds))) :
    ∃ sub, dictFind? (buildPairTo ds) pid = some sub ∧ completeEntry (pid, sub) = true ∧
      dictFind? (filterComplete (buildPairTo ds)) pid = some sub := by
  have hnd := buildPairTo_keys_nodup ds
  have hcf := dictFind?_filter completeEntry (buildPairTo ds) pid hnd
  have hc : dictContains (filterComplete (buildPairTo ds)) pid = true :=
    (dictContains_iff_mem _ _).2 hmem
  rw [show dictContains (filterComplete (buildPairTo ds)) pid
    = (dictFind? (filterComplete (buildPairTo ds)) pid).isSome from rfl] at hc
  rw [show filterComplete (buildPairTo ds) = (buildPairTo ds).filter completeEntry from rfl]
    at hc ⊢
  cases hf : dictFind? (buildPairTo ds) pid with
  | none =>
    simp only [hf] at hcf
    rw [hcf] at hc
    simp at hc
  | some sub =>
    simp only [hf] at hcf
    cases hce : completeEntry (pid, sub) with
    | false =>
      rw [if_neg (by simp [hce])] at hcf
      rw [hcf] at hc
      simp at hc
    | true =>
      rw [if_pos hce] at hcf
      exact ⟨sub, rfl, hce, hcf⟩

theorem sampler_lookup_eq (ds : Dataset) (pid side : Int)
    (hmem : pid ∈ dictKeys (filterComplete (buildPairTo ds))) :
    lookup2 (filterComplete (buildPairTo ds)) pid side
      = lookup2 (buildPairTo ds) pid side := by
  obtain ⟨sub, hf, _, hff⟩ := filtered_find ds pid hmem
  simp [lookup2, hf, hff]

theorem sampler_lookup_isSome (ds : Dataset) (pid side : Int)
    (hmem : pid ∈ dictKeys (filterComplete (buildPairTo ds)))
    (hside : side = 0 ∨ side = 1) :
    (lookup2 (filterComplete (buildPairTo ds)) pid side).isSome = true := by
  obtain ⟨sub, hf, hce, hff⟩ := filtered_find ds pid hmem
  have hl : lookup2 (filterComplete (buildPairTo ds)) pid side = dictFind? sub side := by
    simp [lookup2, hff]
  rw [hl]
  simp only [completeEntry, Bool.and_eq_true] at hce
  rcases hside with h | h <;> subst h
  · exact hce.1
  · exact hce.2

/-! ### The emission loop -/

theorem emitPair_eq_some (pt : List (Int × List (Int × Nat))) (K : Nat) (pid : Int)
    (h0 : (lookup2 pt pid 0).isSome = true) (h1 : (lookup2 pt pid 1).isSome = true) :
    emitPair pt K pid = some (pairBlock pt K pid) := by
  cases hsub : dictFind? pt pid with
  | none => rw [lookup2, hsub] at h0; simp at h0
  | some sub =>
    rw [lookup2, hsub] at h0 h1
    simp only [Option.some_bind] at h0 h1
    cases hf0 : dictFind? sub 0 with
    | none => rw [hf0] at h0; simp at h0
    | some idx0 =>
      cases hf1 : dictFind? sub 1 with
      | none => rw [hf1] at h1; simp at h1
      | some idx1 =>
        simp [emitPair, pairBlock, lookup2, hsub, hf0, hf1]

theorem iterLoopM_eq_emitAll (pt : List (Int × List (Int × Nat))) (K : Nat)
    (pids : List Int)
    (h : ∀ pid ∈ pids, (lookup2 pt pid 0).isSome = true ∧ (lookup2 pt pid 1).isSome = true) :
    iterLoopM pt K pids = some (emitAll pt K pids) := by
  induction pids with
  | nil => rfl
  | cons pid rest ih =>
    have hp := h pid (List.mem_cons_self pid rest)
    have hrest := ih fun x hx => h x (List.mem_cons_of_mem pid hx)
    rw [show iterLoopM pt K (pid :: rest) =
      match emitPair pt K pid, iterLoopM pt K rest with
      | some blk, some tail => some (blk ++ tail)
      | _, _ => none from rfl]
    rw [emitPair_eq_some pt K pid hp.1 hp.2, hrest]
    rfl

theorem emitAll_length (pt : List (Int × List (Int × Nat))) (K : Nat) (pids : List Int) :
    (emitAll pt K pids).length = pids.length * (2 * K) := by
  induction pids with
  | nil => simp [emitAll]
  | cons pid rest ih =>
    have : emitAll pt K (pid :: rest) = pairBlock pt K pid ++ emitAll pt K rest := rfl
    rw [this]
    simp only [List.length_append, List.length_cons, ih, pairBlock,
      List.length_replicate]
    ring

theorem mem_emitAll {pt : List (Int × List (Int × Nat))} {K : Nat} {pids : List Int}
    {m : Nat} (h : m ∈ emitAll pt K pids) :
    ∃ pid ∈ pids, ∃ side, (side = (0 : Int) ∨ side = 1) ∧
      m = (lookup2 pt pid side).getD 0 := by
  induction pids with
  | nil => simp [emitAll] at h
  | cons pid rest ih =>
    rw [show emitAll pt K (pid :: rest) = pairBlock pt K pid ++ emitAll pt K rest from rfl]
      at h
    rcases List.mem_append.1 h with h | h
    · rcases List.mem_append.1 h with h | h
      · exact ⟨pid, List.mem_cons_self pid rest, 0, Or.inl rfl,
          (List.eq_of_mem_replicate h)⟩
      · exact ⟨pid, List.mem_cons_self pid rest, 1, Or.inr rfl,
          (List.eq_of_mem_replicate h)⟩
    · obtain ⟨x, hx, side, hside, hm⟩ := ih h
      exact ⟨x, List.mem_cons_of_mem pid hx, side, hside, hm⟩

/-! ### One pass of a successfully constructed sampler -/

theorem mem_localPairs_mem_pairs {s : PairRepeatSampler} {pid : Int}
    (hw : 1 ≤ s.world_size) (h : pid ∈ localPairs s) : pid ∈ s.pairs :=
  (mem_orderedPairs s pid).1 (mem_of_mem_strideSlice hw h)

theorem iter_eq_emitAll {ds : Dataset} {K : Nat} {sh : Bool} {seed r w : Nat}
    {s : PairRepeatSampler} (hmk : mkSampler ds K sh seed r w = .ok s) (hw : 1 ≤ w) :
    iterIndices s = some (emitAll s.pair_to s.mini_repeat_count (localPairs s)) := by
  obtain ⟨hpt, hpairs, _, _, _, _, _, hwld, _⟩ := mkSampler_ok hmk
  have hw2 : 1 ≤ s.world_size := hwld ▸ hw
  apply iterLoopM_eq_emitAll
  intro pid hpid
  have hmem : pid ∈ dictKeys (filterComplete (buildPairTo ds)) := by
    rw [← hpairs]
    exact mem_localPairs_mem_pairs hw2 hpid
  rw [hpt]
  exact ⟨sampler_lookup_isSome ds pid 0 hmem (Or.inl rfl),
    sampler_lookup_isSome ds pid 1 hmem (Or.inr rfl)⟩

theorem set_epoch_fields (s : PairRepeatSampler) (e : Nat) :
    (set_epoch s e).epoch = e ∧ (set_epoch s e).n = s.n ∧
    (set_epoch s e).mini_repeat_count = s.mini_repeat_count ∧
    (set_epoch s e).shuffle = s.shuffle ∧ (set_epoch s e).seed = s.seed ∧
    (set_epoch s e).rank = s.rank ∧ (set_epoch s e).world_size = s.world_size ∧
    (set_epoch s e).pair_to = s.pair_to ∧ (set_epoch s e).pairs = s.pairs :=
  ⟨rfl, rfl, rfl, rfl, rfl, rfl, rfl, rfl, rfl⟩

/-- The same pass, with the epoch overwritten first. -/
theorem iter_eq_emitAll_epoch {ds : Dataset} {K : Nat} {sh : Bool} {seed r w : Nat}
    {s : PairRepeatSampler} (hmk : mkSampler ds K sh seed r w = .ok s) (hw : 1 ≤ w)
    (e : Nat) :
    iterIndices (set_epoch s e) = some (emitAll (set_epoch s e).pair_to
      (set_epoch s e).mini_repeat_count (localPairs (set_epoch s e))) := by
  obtain ⟨hpt, hpairs, _, _, _, _, _, hwld, _⟩ := mkSampler_ok hmk
  have hw2 : 1 ≤ (set_epoch s e).world_size := by
    show 1 ≤ s.world_size
    rw [hwld]
    exact hw
  apply iterLoopM_eq_emitAll
  intro pid hpid
  have hmem : pid ∈ dictKeys (filterComplete (buildPairTo ds)) := by
    rw [← hpairs, ← (set_epoch_fields s e).2.2.2.2.2.2.2.2]
    exact mem_localPairs_mem_pairs hw2 hpid
  rw [(set_epoch_fields s e).2.2.2.2.2.2.2.1, hpt]
  exact ⟨sampler_lookup_isSome ds pid 0 hmem (Or.inl rfl),
    sampler_lookup_isSome ds pid 1 hmem (Or.inr rfl)⟩

/-! ### Concrete instances used by the witnesses -/

/-- Ten examples whose only complete pair (pair id 1) has its side-0 member
at dataset index 5 and its side-1 member at index 9. -/
def dsTen : Dataset :=
  [⟨100, 0⟩, ⟨101, 0⟩, ⟨102, 0⟩, ⟨103, 0⟩, ⟨104, 0⟩, ⟨1, 0⟩,
    ⟨200, 1⟩, ⟨201, 1⟩, ⟨202, 1⟩, ⟨1, 1⟩]

/-- The sampler `mkSampler dsTen 3 false 0 0 1` constructs. -/
def sTen : PairRepeatSampler :=
  ⟨10, 3, false, 0, 0, 1, 0, [(1, [(0, 5), (1, 9)])], [1]⟩

/-- Pair ids `{1, 2, 3}` where pair 3 has only side 0. -/
def dsPartial : Dataset := [⟨1, 0⟩, ⟨1, 1⟩, ⟨2, 0⟩, ⟨2, 1⟩, ⟨3, 0⟩]

/-- The pair mapping both `dsPartial` and its 4-example prefix produce. -/
def ptTwo : List (Int × List (Int × Nat)) := [(1, [(0, 0), (1, 1)]), (2, [(0, 2), (1, 3)])]

/-- Built from the 4-example prefix of `dsPartial` with shuffling on. -/
def sShufA : PairRepeatSampler := ⟨4, 2, true, 7, 0, 1, 0, ptTwo, [1, 2]⟩

/-- Built from `dsPartial` itself with shuffling on: a distinct instance
(different `n`) with identical seed, epoch and pair data. -/
def sShufB : PairRepeatSampler := ⟨5, 2, true, 7, 0, 1, 0, ptTwo, [1, 2]⟩

/-- Built from `dsPartial` with shuffling off and seed 3. -/
def sPlainA : PairRepeatSampler := ⟨5, 1, false, 3, 0, 1, 0, ptTwo, [1, 2]⟩

/-- Built from `dsPartial` with shuffling off and seed 9. -/
def sPlainB : PairRepeatSampler := ⟨5, 1, false, 9, 0, 1, 0, ptTwo, [1, 2]⟩

/-- Three complete pairs. -/
def dsThree : Dataset := [⟨1, 0⟩, ⟨1, 1⟩, ⟨2, 0⟩, ⟨2, 1⟩, ⟨3, 0⟩, ⟨3, 1⟩]

/-- The sampler `mkSampler dsThree 2 false 5 0 2` constructs (rank 0 of 2). -/
def sThree : PairRepeatSampler :=
  ⟨6, 2, false, 5, 0, 2, 0,
    [(1, [(0, 0), (1, 1)]), (2, [(0, 2), (1, 3)]), (3, [(0, 4), (1, 5)])], [1, 2, 3]⟩

/-- Two examples, no pair id with both sides. -/
def dsBad : Dataset := [⟨1, 0⟩, ⟨2, 1⟩]

/-- Pair 1's side 0 appears at indices 0 and 2: the scan keeps index 2. -/
def dsDup : Dataset := [⟨1, 0⟩, ⟨1, 1⟩, ⟨1, 0⟩, ⟨7, 1⟩]

/-- The sampler `mkSampler dsDup 1 false 0 0 1` constructs. -/
def sDup : PairRepeatSampler := ⟨4, 1, false, 0, 0, 1, 0, [(1, [(0, 2), (1, 1)])], [1]⟩

/-! ### The claims -/

/-- C1: for every dataset from which construction succeeds, one iteration
pass emits, for each pair selected for this worker and in the order the
pairs were selected, the pair's side-0 index repeated `K` times immediately
followed by its side-1 index repeated `K` times, with no interleaving
(`emitAll` is one `replicate K idx0 ++ replicate K idx1` block per selected
pair, in order); the witness checks the `K = 3`, single-pair instance with
side-0 index 5 and side-1 index 9, whose emission is `[5,5,5,9,9,9]`. -/
theorem C1_emission_shape (ds : Dataset) (K : Nat) (sh : Bool) (seed r w : Nat)
    (s : PairRepeatSampler) (hmk : mkSampler ds K sh seed r w = .ok s) (hw : 1 ≤ w) :
    iterIndices s = some (emitAll s.pair_to s.mini_repeat_count (localPairs s)) :=
  iter_eq_emitAll hmk hw

theorem C1_emission_shape_witness :
    mkSampler dsTen 3 false 0 0 1 = Except.ok sTen ∧
      iterIndices sTen = some [5, 5, 5, 9, 9, 9] :=
  ⟨rfl, (C1_emission_shape dsTen 3 false 0 0 1 sTen rfl (by decide)).trans (by decide)⟩

/-- C2: the construction scan builds an index containing exactly those pair
identifiers for which both a side-0 and a side-1 example occur in the
dataset; incomplete pairs are dropped without an error; in particular, for
pair ids `{1, 2, 3}` where pair 3 has only side 0, the built index holds
exactly pairs `{1, 2}` and construction succeeds. -/
theorem C2_completeness_filter (ds : Dataset) (pid : Int) :
    (pid ∈ dictKeys (filterComplete (buildPairTo ds)) ↔
      hasSideB ds pid 0 = true ∧ hasSideB ds pid 1 = true) ∧
    dictKeys (filterComplete (buildPairTo dsPartial)) = [1, 2] ∧
    isError (mkSampler dsPartial 1 false 0 0 1) = false :=
  ⟨mem_pairs_iff ds pid, by decide, by decide⟩

theorem C2_completeness_filter_witness :
    ((3 : Int) ∈ dictKeys (filterComplete (buildPairTo dsPartial)) ↔
      hasSideB dsPartial 3 0 = true ∧ hasSideB dsPartial 3 1 = true) ∧
    dictKeys (filterComplete (buildPairTo dsPartial)) = [1, 2] ∧
    isError (mkSampler dsPartial 1 false 0 0 1) = false :=
  C2_completeness_filter dsPartial 3

/-- C3: with shuffling enabled the pair permutation is a pure function of
`seed + epoch` and the stored pair data, so two instances (or two passes of
one instance) with identical seed, epoch and pair data produce the same
sequence of dataset indices. -/
theorem C3_shuffle_determinism (s1 s2 : PairRepeatSampler)
    (hsh1 : s1.shuffle = true) (hsh2 : s2.shuffle = true)
    (hseed : s1.seed = s2.seed) (hepoch : s1.epoch = s2.epoch)
    (hpairs : s1.pairs = s2.pairs) (hpt : s1.pair_to = s2.pair_to)
    (hK : s1.mini_repeat_count = s2.mini_repeat_count)
    (hr : s1.rank = s2.rank) (hw : s1.world_size = s2.world_size) :
    iterIndices s1 = iterIndices s2 := by
  simp only [iterIndices, localPairs, orderedPairs, hsh1, hsh2, hseed, hepoch,
    hpairs, hpt, hK, hr, hw]

theorem C3_shuffle_determinism_witness : iterIndices sShufA = iterIndices sShufB :=
  C3_shuffle_determinism sShufA sShufB rfl rfl rfl rfl rfl rfl rfl rfl rfl

theorem orderedPairs_set_rank (s : PairRepeatSampler) (r : Nat) :
    orderedPairs { s with rank := r } = orderedPairs s := rfl

theorem localPairs_set_rank (s : PairRepeatSampler) (r : Nat) :
    localPairs { s with rank := r } = strideSlice (orderedPairs s) r s.world_size := rfl

theorem nodup_get?_inj {α : Type} {l : List α} (h : l.Nodup) {i j : Nat} {a : α}
    (hi : l.get? i = some a) (hj : l.get? j = some a) : i = j := by
  obtain ⟨hi2, hgi⟩ := List.get?_eq_some.1 hi
  obtain ⟨hj2, hgj⟩ := List.get?_eq_some.1 hj
  have heq : l.get ⟨i, hi2⟩ = l.get ⟨j, hj2⟩ := by rw [hgi, hgj]
  have h2 := (h.get_inj_iff).1 heq
  exact congrArg Fin.val h2

theorem sampler_pairs_nodup {ds : Dataset} {K : Nat} {sh : Bool} {seed r w : Nat}
    {s : PairRepeatSampler} (hmk : mkSampler ds K sh seed r w = .ok s) :
    s.pairs.Nodup := by
  obtain ⟨_, hpairs, _⟩ := mkSampler_ok hmk
  rw [hpairs]
  exact dictKeys_filter_nodup _ _ (buildPairTo_keys_nodup ds)

/-- C4: for a fixed (possibly shuffled) pair order and any `world_size ≥ 1`,
the worker of rank `r` takes exactly the pairs at positions
`r, r + world_size, r + 2·world_size, …`; the per-worker pair sets are
pairwise disjoint and cover every stored pair — every complete pair (and
`s.pairs` holds exactly the complete pair ids) lands on exactly one worker,
namely `assignedRank`. -/
theorem C4_stride_sharding (ds : Dataset) (K : Nat) (sh : Bool) (seed rank w : Nat)
    (s : PairRepeatSampler) (pid : Int) (k r r1 r2 : Nat)
    (hmk : mkSampler ds K sh seed rank w = .ok s) (hw : 1 ≤ w) :
    (r < w → (localPairs { s with rank := r }).get? k = (orderedPairs s).get? (r + k * w)) ∧
    (pid ∈ s.pairs → assignedRank s pid < w ∧
      pid ∈ localPairs { s with rank := assignedRank s pid }) ∧
    (r1 < w → r2 < w → pid ∈ localPairs { s with rank := r1 } →
      pid ∈ localPairs { s with rank := r2 } → r1 = r2) ∧
    (pid ∈ s.pairs ↔ hasSideB ds pid 0 = true ∧ hasSideB ds pid 1 = true) := by
  obtain ⟨hpt, hpairs, hn, hK, hsh, hseed, hrk, hwld, hep⟩ := mkSampler_ok hmk
  have hwpos : 1 ≤ s.world_size := by rw [hwld]; exact hw
  have hnd : (orderedPairs s).Nodup := orderedPairs_nodup s (sampler_pairs_nodup hmk)
  refine ⟨?_, ?_, ?_, ?_⟩
  · intro _
    rw [localPairs_set_rank, hwld]
    exact strideSlice_get? _ r w k hw
  · intro hp
    have hpo : pid ∈ orderedPairs s := (mem_orderedPairs s pid).2 hp
    have hidx : List.indexOf pid (orderedPairs s) < (orderedPairs s).length :=
      List.indexOf_lt_length.2 hpo
    have hget : (orderedPairs s).get? (List.indexOf pid (orderedPairs s)) = some pid :=
      List.get?_eq_some.2 ⟨hidx, List.indexOf_get hidx⟩
    constructor
    · show List.indexOf pid (orderedPairs s) % s.world_size < w
      rw [← hwld]
      exact Nat.mod_lt _ (by omega)
    · rw [localPairs_set_rank, mem_strideSlice_iff _ _ _ _ hwpos]
      refine ⟨List.indexOf pid (orderedPairs s) / s.world_size, ?_⟩
      have hpos : assignedRank s pid
          + List.indexOf pid (orderedPairs s) / s.world_size * s.world_size
          = List.indexOf pid (orderedPairs s) := by
        show List.indexOf pid (orderedPairs s) % s.world_size + _ * _ = _
        rw [Nat.mul_comm]
        exact Nat.mod_add_div _ _
      rw [hpos]
      exact hget
  · intro h1 h2 hm1 hm2
    rw [localPairs_set_rank, mem_strideSlice_iff _ _ _ _ hwpos] at hm1 hm2
    obtain ⟨k1, hk1⟩ := hm1
    obtain ⟨k2, hk2⟩ := hm2
    have heq : r1 + k1 * s.world_size = r2 + k2 * s.world_size :=
      nodup_get?_inj hnd hk1 hk2
    have hmod : (r1 + k1 * s.world_size) % s.world_size
        = (r2 + k2 * s.world_size) % s.world_size := by rw [heq]
    rw [Nat.add_mul_mod_self_right, Nat.add_mul_mod_self_right] at hmod
    have h1w : r1 < s.world_size := by rw [hwld]; exact h1
    have h2w : r2 < s.world_size := by rw [hwld]; exact h2
    rwa [Nat.mod_eq_of_lt h1w, Nat.mod_eq_of_lt h2w] at hmod
  · rw [hpairs]
    exact mem_pairs_iff ds pid

theorem C4_stride_sharding_witness :
    assignedRank sThree 3 < 2 ∧
      (3 : Int) ∈ localPairs { sThree with rank := assignedRank sThree 3 } :=
  (C4_stride_sharding dsThree 2 false 5 0 2 sThree 3 0 0 0 0 rfl (by decide)).2.1
    (by decide)

theorem matchAt_eq_true {ds : Dataset} {i : Nat} {pid side : Int} :
    matchAt ds i pid side = true ↔
      ∃ e, ds.get? i = some e ∧ e.pair_id = pid ∧ e.side = side := by
  unfold matchAt
  cases hg : ds.get? i with
  | none => simp
  | some e => simp [Bool.and_eq_true, beq_iff_eq]

/-- C5: construction fails (with `ValueError`, modelled by `Except.error`,
so no usable instance is produced) exactly when the dataset holds no pair
id with both sides present; any dataset with at least one complete pair
constructs successfully. -/
theorem C5_error_iff (ds : Dataset) (K : Nat) (sh : Bool) (seed r w : Nat) :
    (isError (mkSampler ds K sh seed r w) = true ↔ hasCompletePairB ds = false) ∧
    (hasCompletePairB ds = true ↔
      ∃ pid : Int, hasSideB ds pid 0 = true ∧ hasSideB ds pid 1 = true) := by
  have h2 : hasCompletePairB ds = true ↔
      ∃ pid : Int, hasSideB ds pid 0 = true ∧ hasSideB ds pid 1 = true := by
    simp only [hasCompletePairB, List.any_eq_true]
    constructor
    · rintro ⟨e, _, hc⟩
      simp only [completeB, Bool.and_eq_true] at hc
      exact ⟨e.pair_id, hc.1, hc.2⟩
    · rintro ⟨pid, h0, h1⟩
      obtain ⟨j, hj⟩ := (hasSideB_iff ds pid 0).1 h0
      obtain ⟨e, hge, hpe, _⟩ := matchAt_eq_true.1 hj
      refine ⟨e, List.get?_mem hge, ?_⟩
      simp only [completeB, Bool.and_eq_true]
      rw [hpe]
      exact ⟨h0, h1⟩
  refine ⟨?_, h2⟩
  rw [mkSampler_isError_iff]
  constructor
  · intro hlen
    cases hcp : hasCompletePairB ds with
    | false => rfl
    | true =>
      obtain ⟨pid, h0, h1⟩ := h2.1 hcp
      have hmem : pid ∈ dictKeys (filterComplete (buildPairTo ds)) :=
        (mem_pairs_iff ds pid).2 ⟨h0, h1⟩
      rw [List.length_eq_zero] at hlen
      rw [hlen] at hmem
      simp [dictKeys] at hmem
  · intro hcp
    rw [List.length_eq_zero,
      show filterComplete (buildPairTo ds) = (buildPairTo ds).filter completeEntry from rfl,
      List.filter_eq_nil]
    intro e he
    obtain ⟨pid, sub⟩ := e
    rw [completeEntry_eq ds he]
    intro hc
    simp only [completeB, Bool.and_eq_true] at hc
    have hall : hasCompletePairB ds = true := h2.2 ⟨pid, hc.1, hc.2⟩
    rw [hcp] at hall
    exact Bool.noConfusion hall

theorem C5_error_iff_witness :
    isError (mkSampler dsBad 3 false 0 0 1) = true ↔ hasCompletePairB dsBad = false :=
  (C5_error_iff dsBad 3 false 0 0 1).1

/-- C6: the length accessor returns `2 · K · |local pairs|`, and that is the
exact number of indices one full pass emits (the pass is finite: it is a
`some` value with that length). -/
theorem C6_length_accuracy (ds : Dataset) (K : Nat) (sh : Bool) (seed r w : Nat)
    (s : PairRepeatSampler) (hmk : mkSampler ds K sh seed r w = .ok s) (hw : 1 ≤ w) :
    samplerLen s = 2 * s.mini_repeat_count * (localPairs s).length ∧
    (iterIndices s).map List.length = some (samplerLen s) := by
  have hlen : (localPairs s).length = (strideSlice s.pairs s.rank s.world_size).length := by
    unfold localPairs
    exact strideSlice_length_congr _ _ _ _ (orderedPairs_length s)
  have h1 : samplerLen s = 2 * s.mini_repeat_count * (localPairs s).length := by
    unfold samplerLen
    rw [← hlen]
    ring
  refine ⟨h1, ?_⟩
  rw [iter_eq_emitAll hmk hw]
  show some (emitAll s.pair_to s.mini_repeat_count (localPairs s)).length
    = some (samplerLen s)
  rw [emitAll_length, h1]
  congr 1
  ring

theorem C6_length_accuracy_witness :
    samplerLen sThree = 2 * sThree.mini_repeat_count * (localPairs sThree).length ∧
    (iterIndices sThree).map List.length = some (samplerLen sThree) :=
  C6_length_accuracy dsThree 2 false 5 0 2 sThree rfl (by decide)

/-- C7: with shuffling disabled, every pass emits the selected pairs in
their original discovery order — the order in which pair ids were first
encountered during the construction scan, restricted to complete pairs and
stride-sliced for this worker — independently of the seed and of any epoch
value set later. -/
theorem C7_no_shuffle_discovery_order (ds : Dataset) (K : Nat) (seed1 seed2 r w : Nat)
    (s1 s2 : PairRepeatSampler) (e1 e2 : Nat)
    (h1 : mkSampler ds K false seed1 r w = .ok s1)
    (h2 : mkSampler ds K false seed2 r w = .ok s2) :
    s1.pairs = (discoveryPids ds).filter (fun pid => completeB ds pid) ∧
    localPairs (set_epoch s1 e1) =
      strideSlice ((discoveryPids ds).filter (fun pid => completeB ds pid)) r w ∧
    iterIndices (set_epoch s1 e1) = iterIndices (set_epoch s2 e2) := by
  obtain ⟨hpt1, hpairs1, _, hK1, hsh1, _, hr1, hw1, _⟩ := mkSampler_ok h1
  obtain ⟨hpt2, hpairs2, _, hK2, hsh2, _, hr2, hw2, _⟩ := mkSampler_ok h2
  have hdisc : dictKeys (filterComplete (buildPairTo ds)) =
      (discoveryPids ds).filter (fun pid => completeB ds pid) := pairs_eq_filter ds
  have hloc : ∀ (t : PairRepeatSampler) (e : Nat), t.shuffle = false → t.rank = r →
      t.world_size = w → t.pairs = dictKeys (filterComplete (buildPairTo ds)) →
      localPairs (set_epoch t e) =
        strideSlice ((discoveryPids ds).filter (fun pid => completeB ds pid)) r w := by
    intro t e hsh hr hw hp
    unfold localPairs orderedPairs
    rw [(set_epoch_fields t e).2.2.2.1, hsh]
    rw [if_neg Bool.false_ne_true]
    rw [(set_epoch_fields t e).2.2.2.2.2.2.2.2, (set_epoch_fields t e).2.2.2.2.2.1,
      (set_epoch_fields t e).2.2.2.2.2.2.1, hp, hr, hw, hdisc]
  have hiter : ∀ (t : PairRepeatSampler) (e : Nat), t.shuffle = false → t.rank = r →
      t.world_size = w → t.pairs = dictKeys (filterComplete (buildPairTo ds)) →
      t.pair_to = filterComplete (buildPairTo ds) → t.mini_repeat_count = K →
      iterIndices (set_epoch t e) = iterLoopM (filterComplete (buildPairTo ds)) K
        (strideSlice ((discoveryPids ds).filter (fun pid => completeB ds pid)) r w) := by
    intro t e hsh hr hw hp hpt hK
    unfold iterIndices
    rw [hloc t e hsh hr hw hp, (set_epoch_fields t e).2.2.2.2.2.2.2.1, hpt,
      (set_epoch_fields t e).2.2.1, hK]
  exact ⟨hpairs1.trans hdisc, hloc s1 e1 hsh1 hr1 hw1 hpairs1,
    (hiter s1 e1 hsh1 hr1 hw1 hpairs1 hpt1 hK1).trans
      (hiter s2 e2 hsh2 hr2 hw2 hpairs2 hpt2 hK2).symm⟩

theorem C7_no_shuffle_discovery_order_witness :
    sPlainA.pairs = (discoveryPids dsPartial).filter (fun pid => completeB dsPartial pid) ∧
    localPairs (set_epoch sPlainA 4) =
      strideSlice ((discoveryPids dsPartial).filter (fun pid => completeB dsPartial pid)) 0 1 ∧
    iterIndices (set_epoch sPlainA 4) = iterIndices (set_epoch sPlainB 11) :=
  C7_no_shuffle_discovery_order dsPartial 1 3 9 0 1 sPlainA sPlainB 4 11 rfl rfl

/-- C8: the epoch-update operation overwrites only the epoch counter: every
other component (pair mapping, pair list, seed, rank, world size, repeat
count, shuffle flag, dataset length) is unchanged, and no re-shuffling
happens at update time — the new epoch only enters the seeded shuffle of a
subsequent iteration request, as the last conjunct shows. -/
theorem C8_set_epoch_frame (s : PairRepeatSampler) (e : Nat) :
    (set_epoch s e).epoch = e ∧
    (set_epoch s e).n = s.n ∧
    (set_epoch s e).mini_repeat_count = s.mini_repeat_count ∧
    (set_epoch s e).shuffle = s.shuffle ∧
    (set_epoch s e).seed = s.seed ∧
    (set_epoch s e).rank = s.rank ∧
    (set_epoch s e).world_size = s.world_size ∧
    (set_epoch s e).pair_to = s.pair_to ∧
    (set_epoch s e).pairs = s.pairs ∧
    orderedPairs (set_epoch s e) =
      (if s.shuffle then pyShuffle (s.seed + e) s.pairs else s.pairs) :=
  ⟨rfl, rfl, rfl, rfl, rfl, rfl, rfl, rfl, rfl, rfl⟩

/-- Every index one pass emits is the stored lookup value of some pair id
at side 0 or side 1, both in the kept mapping and in the full scan result. -/
theorem emitted_index_lookup {ds : Dataset} {K : Nat} {sh : Bool} {seed r w : Nat}
    {s : PairRepeatSampler} {m : Nat} (hmk : mkSampler ds K sh seed r w = .ok s)
    (hw : 1 ≤ w) (hm : m ∈ (iterIndices s).getD []) :
    ∃ pid side, (side = (0 : Int) ∨ side = 1) ∧
      lookup2 s.pair_to pid side = some m ∧
      lookup2 (buildPairTo ds) pid side = some m := by
  obtain ⟨hpt, hpairs, _, _, _, _, _, hwld, _⟩ := mkSampler_ok hmk
  have hw2 : 1 ≤ s.world_size := by rw [hwld]; exact hw
  have hiter := iter_eq_emitAll hmk hw
  rw [hiter] at hm
  have hm2 : m ∈ emitAll s.pair_to s.mini_repeat_count (localPairs s) := hm
  obtain ⟨pid, hpid, side, hside, hmv⟩ := mem_emitAll hm2
  have hmem : pid ∈ dictKeys (filterComplete (buildPairTo ds)) := by
    rw [← hpairs]
    exact mem_localPairs_mem_pairs hw2 hpid
  have hsome : (lookup2 s.pair_to pid side).isSome = true := by
    rw [hpt]
    exact sampler_lookup_isSome ds pid side hmem hside
  have hlk : lookup2 s.pair_to pid side = some m := by
    cases hc : lookup2 s.pair_to pid side with
    | none => rw [hc] at hsome; simp at hsome
    | some v =>
      rw [hc] at hmv
      have hmv2 : m = v := hmv
      rw [hmv2]
  have hlk2 : lookup2 (buildPairTo ds) pid side = some m := by
    have h := hlk
    rw [hpt, sampler_lookup_eq ds pid side hmem] at h
    exact h
  exact ⟨pid, side, hside, hlk, hlk2⟩

/-- C9: once construction succeeds, iteration cannot fail for any epoch,
rank below the world size, or shuffle setting: the pass is a `some` value
(no lookup in the loop body misses), and every emitted value is a dataset
index below `N` that the construction scan recorded in the pair mapping. -/
theorem C9_iteration_safety (ds : Dataset) (K : Nat) (sh : Bool) (seed r w : Nat)
    (s : PairRepeatSampler) (m : Nat)
    (hmk : mkSampler ds K sh seed r w = .ok s) (hw : 1 ≤ w) :
    (iterIndices s).isSome = true ∧
    (m ∈ (iterIndices s).getD [] → m < s.n ∧ recordedB s.pair_to m = true) := by
  obtain ⟨hpt, hpairs, hn, _, _, _, _, hwld, _⟩ := mkSampler_ok hmk
  have hiter := iter_eq_emitAll hmk hw
  refine ⟨by rw [hiter]; rfl, ?_⟩
  intro hm
  obtain ⟨pid, side, hside, hlk, hlk2⟩ := emitted_index_lookup hmk hw hm
  constructor
  · rw [hn]
    exact lookup2_buildPairTo_lt hlk2
  · cases hfp : dictFind? s.pair_to pid with
    | none => rw [lookup2, hfp] at hlk; simp at hlk
    | some sub =>
      rw [lookup2, hfp, Option.some_bind] at hlk
      have hentry : (pid, sub) ∈ s.pair_to := mem_of_dictFind?_eq_some hfp
      unfold recordedB
      rw [List.any_eq_true]
      refine ⟨(pid, sub), hentry, ?_⟩
      rcases hside with h | h <;> subst h
      · simp [hlk]
      · simp [hlk]

theorem C9_iteration_safety_witness :
    (iterIndices sTen).isSome = true ∧
    (5 ∈ (iterIndices sTen).getD [] → 5 < sTen.n ∧ recordedB sTen.pair_to 5 = true) :=
  C9_iteration_safety dsTen 3 false 0 0 1 sTen 5 rfl (by decide)

theorem sameKeyAt_eq_true {ds : Dataset} {m j : Nat} :
    sameKeyAt ds m j = true ↔
      ∃ a b, ds.get? m = some a ∧ ds.get? j = some b ∧
        a.pair_id = b.pair_id ∧ a.side = b.side := by
  unfold sameKeyAt
  cases hgm : ds.get? m with
  | none => simp
  | some a =>
    cases hgj : ds.get? j with
    | none => simp
    | some b => simp [Bool.and_eq_true, beq_iff_eq]

/-- C10: when several dataset positions share one `(pair_id, side)`
combination, the scan's assignments overwrite, so the built mapping holds
the last such position (it matches and no other matching position is
later), a lookup succeeds whenever any matching position exists, and
consequently an emitted index is always the last position of its
`(pair_id, side)` combination — an earlier duplicate is never emitted. -/
theorem C10_last_occurrence (ds : Dataset) (pid side : Int) (i j : Nat) (K : Nat)
    (sh : Bool) (seed r w : Nat) (s : PairRepeatSampler) (m : Nat) :
    (lookup2 (buildPairTo ds) pid side = some i →
      matchAt ds i pid side = true ∧ (matchAt ds j pid side = true → j ≤ i)) ∧
    (matchAt ds j pid side = true → (lookup2 (buildPairTo ds) pid side).isSome = true) ∧
    (mkSampler ds K sh seed r w = .ok s → 1 ≤ w → m ∈ (iterIndices s).getD [] →
      sameKeyAt ds m j = true → j ≤ m) := by
  refine ⟨?_, ?_, ?_⟩
  · intro h
    have hl := lookup2_buildPairTo_last h
    exact ⟨hl.1, fun hj => hl.2 j hj⟩
  · intro hj
    rw [lookup2_isSome_iff, hasSideB_iff]
    exact ⟨j, hj⟩
  · intro hmk hw hm hsame
    obtain ⟨pid2, side2, _, _, hlkB⟩ := emitted_index_lookup hmk hw hm
    have hlast := lookup2_buildPairTo_last hlkB
    obtain ⟨em, hgm, hpidm, hsidem⟩ := matchAt_eq_true.1 hlast.1
    obtain ⟨a, b, hga, hgb, hpab, hsab⟩ := sameKeyAt_eq_true.1 hsame
    rw [hgm] at hga
    injection hga with hga
    apply hlast.2 j
    apply matchAt_eq_true.2
    refine ⟨b, hgb, ?_, ?_⟩
    · rw [← hpab, ← hga]
      exact hpidm
    · rw [← hsab, ← hga]
      exact hsidem

theorem C10_last_occurrence_witness :
    matchAt dsDup 2 1 0 = true ∧ (matchAt dsDup 0 1 0 = true → 0 ≤ 2) :=
  (C10_last_occurrence dsDup 1 0 2 0 1 false 0 0 1 sDup 2).1 (by decide)

end PairSampler
